import Mathlib

/-!
Shallow embedding of the tic-tac-toe-online game core (src/src/App.jsx):
the vanishing-piece game-state machine (board, per-player queues, label
cycling, win detection) and the host-authoritative synchronization
handlers, together with proofs of the specified properties.

Modelling conventions:
* A JS array of cells is modelled as a total map `Nat → Option Piece`;
  reading any index outside the populated range yields `none`, exactly as
  a JS array read of an out-of-range index yields `undefined` (falsy).
  Writing an out-of-range index is a point update, as in JS.
* The JS objects `queues = {1: [...], 2: [...]}` and
  `nextLabel = {1: _, 2: _}` keyed by player id are modelled as total
  maps `Nat → List Nat` and `Nat → Nat`; the code only ever uses keys
  1 and 2, and the spread-with-computed-key update
  `{...q, [player]: arr}` is a point update.
* Machine numbers in the relevant code paths are small nonnegative
  integers (indices, labels, player ids), modelled as `Nat`.
-/

namespace TicTacToe

/-- A placed piece: `{ player, label }` in the source. -/
structure Piece where
  player : Nat
  label : Nat
deriving DecidableEq, Repr

/-- A board, as described in the module conventions above. -/
abbrev Board := Nat → Option Piece

/-- Win result `{ winner, line }` returned by `checkWin`. -/
structure WinRes where
  winner : Nat
  line : List Nat
deriving DecidableEq, Repr

/-- Source `idxAt(r, c, n) = r * n + c`. -/
def idxAt (r c n : Nat) : Nat := r * n + c

/-- Row `i` of the board, as pushed by the `checkWin` loop. -/
def rowLine (i n : Nat) : List Nat := (List.range n).map (fun j => idxAt i j n)

/-- Column `i` of the board, as pushed by the `checkWin` loop. -/
def colLine (i n : Nat) : List Nat := (List.range n).map (fun j => idxAt j i n)

/-- The main diagonal pushed by `checkWin`. -/
def diagLine (n : Nat) : List Nat := (List.range n).map (fun j => idxAt j j n)

/-- The anti-diagonal pushed by `checkWin`. -/
def antiDiagLine (n : Nat) : List Nat :=
  (List.range n).map (fun j => idxAt j (n - 1 - j) n)

/-- The `lines` array built by the loop in `checkWin`: for each
`i = 0..n-1` it pushes row `i` then column `i`, and after the loop the
main diagonal then the anti-diagonal. -/
def winLines (n : Nat) : List (List Nat) :=
  ((List.range n).foldl (fun acc i => acc ++ [rowLine i n, colLine i n]) [])
    ++ [diagLine n, antiDiagLine n]

/-- The body of the `for (const line of lines)` loop in `checkWin`:
`first = board[line[0]]; if (!first) continue;` then the line wins when
every cell holds a piece of the same player as `first`. -/
def lineWin (board : Board) (line : List Nat) : Option WinRes :=
  match line.head? with
  | none => none
  | some i0 =>
    match board i0 with
    | none => none
    | some first =>
      if line.all (fun i =>
          match board i with
          | some pc => pc.player == first.player
          | none => false)
      then some { winner := first.player, line := line }
      else none

/-- Source `checkWin(board, n)`: return the result for the first line of
`winLines n` whose loop body succeeds, `null` otherwise. -/
def checkWin (board : Board) (n : Nat) : Option WinRes :=
  (winLines n).findSome? (lineWin board)

/-- Specification-worded enumeration of candidate lines: for
`i = 0..n-1` the row `i` then the column `i` (interleaved), followed by
the main diagonal, then the anti-diagonal. Used to state that the
source enumeration `winLines` realizes exactly this order. -/
def specWinLines (n : Nat) : List (List Nat) :=
  ((List.range n).flatMap (fun i => [rowLine i n, colLine i n]))
    ++ [diagLine n, antiDiagLine n]

/-- Specification predicate: every cell of `line` is occupied by a piece
owned by player `p` (labels ignored). -/
def ownedBy (board : Board) (line : List Nat) (p : Nat) : Prop :=
  ∀ i ∈ line, ∃ pc, board i = some pc ∧ pc.player = p

/-- The whole `GameState` of one peer: the React state variables
`n, board, turn, queues, nextLabel, win`. -/
structure GameState where
  n : Nat
  board : Board
  turn : Nat
  queues : Nat → List Nat
  nextLabel : Nat → Nat
  win : Option WinRes

/-- The initial session state for board size `n`: empty board, empty
queues, labels at 1, turn 1, no win (the source initializes with
`n = 3` and the board-resize effect re-establishes this shape). -/
def initialState (n : Nat) : GameState :=
  { n := n
    board := fun _ => none
    turn := 1
    queues := fun _ => []
    nextLabel := fun _ => 1
    win := none }

/-- Source `removeOldestIfNeeded(forPlayer, b, q)`: when the player
queue has reached `maxPieces` entries, shift its oldest index off and
blank that board cell; returns the updated board together with the
(possibly shortened) queue array. The `[]` branch of the match is
unreachable in every use because the guard requires
`maxPieces ≤ length` with `maxPieces = n ≥ 1`. -/
def removeOldestIfNeeded (forPlayer : Nat) (b : Board) (q : Nat → List Nat)
    (maxPieces : Nat) : Board × List Nat :=
  let qArr := q forPlayer
  if maxPieces ≤ qArr.length then
    match qArr with
    | [] => (b, [])
    | idx :: rest => (fun j => if j = idx then none else b j, rest)
  else (b, qArr)

/-- Source `cycleLabelFor(player)`: read the player label counter and
advance it to `label >= n ? 1 : label + 1`; returns the label together
with the updated counters. -/
def cycleLabelFor (nextLabel : Nat → Nat) (n player : Nat) :
    Nat × (Nat → Nat) :=
  let label := nextLabel player
  let nxt := if n ≤ label then 1 else label + 1
  (label, fun q => if q = player then nxt else nextLabel q)

/-- Source `applyMove(index, player)`: evict the oldest piece if the
player queue is full, place `{player, label}` at `index` with the cycled
label, append `index` to the player queue, re-run win detection, and
flip the turn only when no win was found. -/
def applyMove (s : GameState) (index player : Nat) : GameState :=
  let evicted := removeOldestIfNeeded player s.board s.queues s.n
  let b1 := evicted.1
  let qArr := evicted.2
  let cycled := cycleLabelFor s.nextLabel s.n player
  let label := cycled.1
  let b2 : Board := fun j =>
    if j = index then some { player := player, label := label } else b1 j
  let q' : Nat → List Nat := fun q =>
    if q = player then qArr ++ [index] else s.queues q
  let res := checkWin b2 s.n
  { n := s.n
    board := b2
    turn := match res with
      | none => if player = 1 then 2 else 1
      | some _ => s.turn
    queues := q'
    nextLabel := cycled.2
    win := res }

/-- Source `snapshotState()`: the object `{ n, board, turn, queues,
nextLabel, win }` built from the current state. -/
def snapshotState (s : GameState) : GameState :=
  { n := s.n
    board := s.board
    turn := s.turn
    queues := s.queues
    nextLabel := s.nextLabel
    win := s.win }

/-- Source `hydrateFromState(s)`: `if (!s) return;` then set every field
from the snapshot. A `null` or `undefined` payload is modelled as
`none`. -/
def hydrateFromState (st : GameState) (s : Option GameState) : GameState :=
  match s with
  | none => st
  | some snap =>
    { n := snap.n
      board := snap.board
      turn := snap.turn
      queues := snap.queues
      nextLabel := snap.nextLabel
      win := snap.win }

/-- Source `resetGame()`: fresh board of the current size, empty queues,
labels back to 1, turn 1, no win. -/
def resetGame (s : GameState) : GameState :=
  { n := s.n
    board := fun _ => none
    turn := 1
    queues := fun _ => []
    nextLabel := fun _ => 1
    win := none }

/-- The `useEffect` with dependency `[n]` (the board-resize reset): when
`n` has changed it rebuilds an all-empty board of the current size and
resets queues, label counters, turn and win. -/
def boardResizeEffect (s : GameState) : GameState :=
  { n := s.n
    board := fun _ => none
    turn := 1
    queues := fun _ => []
    nextLabel := fun _ => 1
    win := none }

/-- A size change through `setN(m)`: when `m` differs from the current
`n` the state re-renders with `n = m` and the board-resize effect runs;
when `m` equals the current `n` React bails out and nothing happens. -/
def setSize (s : GameState) (m : Nat) : GameState :=
  if m = s.n then s else boardResizeEffect { s with n := m }

/-- Hydration followed by the render cycle it triggers: after
`hydrateFromState` commits, the board-resize effect runs exactly when
the committed `n` differs from the previous one (dependency `[n]`). -/
def hydrateThenResize (st : GameState) (s : Option GameState) : GameState :=
  let st' := hydrateFromState st s
  if st'.n = st.n then st' else boardResizeEffect st'

/-- The peer data connection, reduced to the one property the send
paths consult: `conn.open`. -/
structure Conn where
  isOpen : Bool
deriving DecidableEq, Repr

/-- Wire messages: the tagged union
`{type:"attempt"} | {type:"state"} | {type:"sync_request"} | {type:"chat"}`.
The attempt index is modelled as a `Nat`, so the handler check
`typeof idx === "number"` always passes. -/
inductive Msg where
  | attempt (index : Nat)
  | syncRequest
  | chat
  | state (payload : GameState)

/-- Source `broadcastState()`: `if (!conn || conn.open !== true) return;`
then send one `state` message carrying `snapshotState()`. The returned
list is the sequence of messages put on the wire. -/
def broadcastState (conn : Option Conn) (s : GameState) : List Msg :=
  match conn with
  | none => []
  | some c => if c.isOpen then [Msg.state (snapshotState s)] else []

/-- The guest click path send (`connRef.current?.send({type:"attempt",
index})`): optional chaining skips the send only when the connection
object is absent; the open flag is not consulted. -/
def guestAttemptSend (conn : Option Conn) (index : Nat) : List Msg :=
  match conn with
  | none => []
  | some _ => [Msg.attempt index]

/-- The host `conn.on("data")` handler: on an attempt, bail out unless
`turn == 2` and no win; then apply the move as player 2 and broadcast
exactly when `board[idx]` is falsy (the deferred `setTimeout` broadcast
reads the post-move state, modelled by broadcasting the new state). On
`sync_request`, broadcast; `chat` and unrecognized types are ignored. -/
def hostOnData (conn : Option Conn) (s : GameState) (m : Msg) :
    GameState × List Msg :=
  match m with
  | Msg.attempt index =>
    if s.turn != 2 || s.win.isSome then (s, [])
    else if (s.board index).isNone then
      let s' := applyMove s index 2
      (s', broadcastState conn s')
    else (s, [])
  | Msg.syncRequest => (s, broadcastState conn s)
  | Msg.chat => (s, [])
  | Msg.state _ => (s, [])

/-- One authority-side input event. -/
inductive HostEvent where
  | click (index : Nat)
  | attemptMsg (index : Nat)
  | reset
  | resize (m : Nat)

/-- The authority state machine over input events: a local click goes
through the `onCanvasClick` guards (`if (win) return`, online turn
ownership `turn !== iAm` with `iAm = 1`, occupied-cell check) before
`applyMove`; an incoming attempt goes through the data handler; reset
and size change run `resetGame` and the resize effect. -/
def hostStep (s : GameState) (e : HostEvent) : GameState :=
  match e with
  | HostEvent.click index =>
    if s.win.isSome then s
    else if s.turn != 1 then s
    else if (s.board index).isSome then s
    else applyMove s index s.turn
  | HostEvent.attemptMsg index => (hostOnData none s (Msg.attempt index)).1
  | HostEvent.reset => resetGame s
  | HostEvent.resize m => setSize s m

/-- Legality of one move at the current state, exactly the `applyMove`
preconditions: no win yet, index on the board, target cell empty. -/
def legalStep (s : GameState) (index : Nat) : Bool :=
  s.win.isNone && decide (index < s.n * s.n) && (s.board index).isNone

/-- Run a sequence of moves, each applied by the player whose turn it
is (every call site of `applyMove` passes the current turn, or 2 on the
host handler exactly when `turn == 2`). -/
def run (s : GameState) : List Nat → GameState
  | [] => s
  | i :: is => run (applyMove s i s.turn) is

/-- A move sequence is legal when every move satisfies `legalStep` in
the state it is applied to. -/
def legalRun (s : GameState) : List Nat → Bool
  | [] => true
  | i :: is => legalStep s i && legalRun (applyMove s i s.turn) is

/-- The (player, label) pair assigned at each step of a run, in order. -/
def runLabels (s : GameState) : List Nat → List (Nat × Nat)
  | [] => []
  | i :: is => (s.turn, s.nextLabel s.turn) :: runLabels (applyMove s i s.turn) is

/-! ### Basic characterizations of `applyMove` -/

theorem applyMove_n (s : GameState) (i p : Nat) : (applyMove s i p).n = s.n := rfl

theorem applyMove_board (s : GameState) (i p j : Nat) :
    (applyMove s i p).board j =
      (if j = i then some { player := p, label := s.nextLabel p }
       else (removeOldestIfNeeded p s.board s.queues s.n).1 j) := rfl

theorem applyMove_queues (s : GameState) (i p q : Nat) :
    (applyMove s i p).queues q =
      (if q = p then (removeOldestIfNeeded p s.board s.queues s.n).2 ++ [i]
       else s.queues q) := rfl

theorem applyMove_nextLabel (s : GameState) (i p q : Nat) :
    (applyMove s i p).nextLabel q =
      (if q = p then (if s.n ≤ s.nextLabel p then 1 else s.nextLabel p + 1)
       else s.nextLabel q) := rfl

theorem applyMove_win (s : GameState) (i p : Nat) :
    (applyMove s i p).win = checkWin (applyMove s i p).board s.n := rfl

theorem applyMove_turn (s : GameState) (i p : Nat) :
    (applyMove s i p).turn =
      (match checkWin (applyMove s i p).board s.n with
       | none => if p = 1 then 2 else 1
       | some _ => s.turn) := rfl

theorem removeOldest_of_lt (p : Nat) (b : Board) (q : Nat → List Nat)
    (maxP : Nat) (h : (q p).length < maxP) :
    removeOldestIfNeeded p b q maxP = (b, q p) := by
  unfold removeOldestIfNeeded
  simp [Nat.not_le.2 h]

theorem removeOldest_of_ge (p : Nat) (b : Board) (q : Nat → List Nat)
    (maxP : Nat) (e : Nat) (rest : List Nat)
    (h : maxP ≤ (q p).length) (hq : q p = e :: rest) :
    removeOldestIfNeeded p b q maxP =
      (fun j => if j = e then none else b j, rest) := by
  have h' : maxP ≤ (e :: rest).length := hq ▸ h
  unfold removeOldestIfNeeded
  simp only [hq, if_pos h']

/-! ### Concrete states used to exercise the theorems below -/

/-- A fresh host session in which it is the guest turn (`turn = 2`). -/
def guestTurnState : GameState := { initialState 3 with turn := 2 }

/-- A snapshot with a larger board size than the receiving session,
carrying one live piece. -/
def snapWide : GameState :=
  { n := 4
    board := fun j => if j = 0 then some { player := 1, label := 1 } else none
    turn := 2
    queues := fun q => if q = 1 then [0] else []
    nextLabel := fun q => if q = 1 then 2 else 1
    win := none }

/-- A state in which player 1 holds a full queue `[0, 1, 2]` with three
matching board pieces, ready to trigger eviction. -/
def fullQueueState : GameState :=
  { n := 3
    board := fun j => if j < 3 then some { player := 1, label := j + 1 } else none
    turn := 1
    queues := fun q => if q = 1 then [0, 1, 2] else []
    nextLabel := fun q => if q = 1 then 1 else 1
    win := none }

/-! ### Claim theorems -/

/-- C10: hydrating with a null or undefined snapshot is a complete
no-op: the guard returns before any field is written, so the state —
`n`, board, turn, queues, label counters and win — is left unchanged. -/
theorem hydrate_null_noop (st : GameState) : hydrateFromState st none = st := rfl

/-- C2 (code bug witness): the pure hydrate/snapshot pair is a
round-trip identity, but when the incoming snapshot carries a different
`n`, the board-resize effect keyed on `[n]` runs after hydration
commits and resets board, queues, labels, turn and win, so the
follower does not adopt the snapshot wholesale. -/
theorem hydrate_resize_divergence :
    snapshotState (hydrateFromState (initialState 3) (some snapWide)) = snapWide
    ∧ snapshotState (hydrateThenResize (initialState 3) (some snapWide)) ≠ snapWide
    ∧ (hydrateThenResize (initialState 3) (some snapWide)).board 0 = none
    ∧ snapWide.board 0 = some { player := 1, label := 1 } := by
  refine ⟨rfl, ?_, rfl, rfl⟩
  intro h
  have h0 := congrArg (fun t => t.board 0) h
  have h1 : (none : Option Piece) = some { player := 1, label := 1 } := h0
  exact Option.noConfusion h1

/-- C9 (counterexample): the guest attempt send is guarded only by the
existence of the connection object (optional chaining), not by an
open-state check: against a present but non-open channel the attempt
is still sent, not skipped. -/
theorem guest_send_open_counterexample :
    (⟨false⟩ : Conn).isOpen = false
    ∧ guestAttemptSend (some ⟨false⟩) 5 = [Msg.attempt 5] := ⟨rfl, rfl⟩

/-- C9 (amended): the authority snapshot broadcast checks that the
connection exists and is open and otherwise sends nothing, while the
follower attempt send checks only that the connection object exists —
it is not guarded by the open flag. -/
theorem send_guard_amended (c : Conn) (s : GameState) (i : Nat) :
    broadcastState none s = []
    ∧ broadcastState (some c) s =
        (if c.isOpen then [Msg.state (snapshotState s)] else [])
    ∧ guestAttemptSend none i = []
    ∧ guestAttemptSend (some c) i = [Msg.attempt i] := ⟨rfl, rfl, rfl, rfl⟩

/-- C1 (counterexample): the host attempt handler performs no bounds
check. With `n = 3` and an in-principle out-of-range index 9, the
handler still applies the move (the queue of player 2 gains index 9)
and emits a `StateSync`, though `9 < n * n` fails. -/
theorem attempt_bounds_counterexample :
    ¬ (9 < 3 * 3)
    ∧ guestTurnState.n = 3
    ∧ guestTurnState.turn = 2
    ∧ guestTurnState.win = none
    ∧ guestTurnState.queues 2 = []
    ∧ (hostOnData (some ⟨true⟩) guestTurnState (Msg.attempt 9)).2.length = 1
    ∧ (hostOnData (some ⟨true⟩) guestTurnState (Msg.attempt 9)).1.queues 2 = [9] := by
  refine ⟨by decide, rfl, rfl, rfl, rfl, ?_, ?_⟩ <;> decide

/-- C1 (amended): on an attempt carrying a numeric index, the host
applies the move as player 2 and broadcasts a snapshot if and only if
`turn = 2`, `win` is none, and `board[index]` is not occupied — where
an out-of-range index reads as unoccupied, no bounds check being
performed; in every other case the message is silently discarded and
the state is left unchanged. -/
theorem attempt_validation_amended (c : Conn) (s : GameState) (index : Nat)
    (hopen : c.isOpen = true) :
    (s.turn = 2 → s.win = none → s.board index = none →
      hostOnData (some c) s (Msg.attempt index) =
        (applyMove s index 2,
         [Msg.state (snapshotState (applyMove s index 2))]))
    ∧ (¬ (s.turn = 2 ∧ s.win = none ∧ s.board index = none) →
      hostOnData (some c) s (Msg.attempt index) = (s, [])) := by
  constructor
  · intro h1 h2 h3
    simp [hostOnData, h1, h2, h3, broadcastState, hopen]
  · intro hno
    by_cases h1 : s.turn = 2
    · by_cases h2 : s.win = none
      · by_cases h3 : s.board index = none
        · exact absurd ⟨h1, h2, h3⟩ hno
        · simp [hostOnData, h1, h2, Option.isNone_iff_eq_none, h3]
      · have h2s : s.win.isSome = true := Option.ne_none_iff_isSome.1 h2
        simp [hostOnData, h2s]
    · have : s.turn != 2 := by simpa using h1
      simp [hostOnData, this]

/-- Closed instance of the amended C1 theorem at an open channel, the
guest-turn state and index 0: the move is applied and broadcast. -/
theorem attempt_validation_amended_witness :
    hostOnData (some ⟨true⟩) guestTurnState (Msg.attempt 0) =
      (applyMove guestTurnState 0 2,
       [Msg.state (snapshotState (applyMove guestTurnState 0 2))]) :=
  (attempt_validation_amended ⟨true⟩ guestTurnState 0 rfl).1 rfl rfl rfl

/-- C4: under the `applyMove` preconditions, when the moving player
queue has at least `n` entries the oldest entry is removed from exactly
that queue and its board cell becomes empty, after which the new index
is appended; when the queue is shorter than `n` no eviction occurs: the
queue is only appended to and every other board cell is untouched. -/
theorem applyMove_eviction (s : GameState) (index p : Nat)
    (hn : 1 ≤ s.n) (hwin : s.win = none) (hindex : index < s.n * s.n)
    (hempty : s.board index = none)
    (hocc : ∀ j ∈ s.queues p, (s.board j).isSome = true) :
    (s.n ≤ (s.queues p).length →
      ∃ e rest, s.queues p = e :: rest
        ∧ (applyMove s index p).queues p = rest ++ [index]
        ∧ (applyMove s index p).board e = none
        ∧ s.board e ≠ none)
    ∧ ((s.queues p).length < s.n →
      (applyMove s index p).queues p = s.queues p ++ [index]
        ∧ ∀ j, j ≠ index → (applyMove s index p).board j = s.board j) := by
  constructor
  · intro hcap
    obtain ⟨e, rest, hq⟩ : ∃ e rest, s.queues p = e :: rest := by
      cases hq : s.queues p with
      | nil => rw [hq] at hcap; simp at hcap; omega
      | cons e rest => exact ⟨e, rest, rfl⟩
    have hro := removeOldest_of_ge p s.board s.queues s.n e rest hcap hq
    have he : e ∈ s.queues p := by rw [hq]; exact List.mem_cons_self e rest
    have heocc := hocc e he
    have hne : e ≠ index := by
      intro h; rw [h, hempty] at heocc; cases heocc
    refine ⟨e, rest, hq, ?_, ?_, ?_⟩
    · rw [applyMove_queues, if_pos rfl, hro]
    · rw [applyMove_board, if_neg hne, hro]
      simp
    · intro h; rw [h] at heocc; cases heocc
  · intro hlt
    have hro := removeOldest_of_lt p s.board s.queues s.n hlt
    constructor
    · rw [applyMove_queues, if_pos rfl, hro]
    · intro j hj
      rw [applyMove_board, if_neg hj, hro]

/-- Closed instance of C4 at the full-queue state: player 1 already
holds `[0, 1, 2]`, the placement at 3 evicts index 0 (its cell becomes
empty) and the queue becomes `[1, 2, 3]`. -/
theorem applyMove_eviction_witness :
    ∃ e rest, fullQueueState.queues 1 = e :: rest
      ∧ (applyMove fullQueueState 3 1).queues 1 = rest ++ [3]
      ∧ (applyMove fullQueueState 3 1).board e = none
      ∧ fullQueueState.board e ≠ none :=
  (applyMove_eviction fullQueueState 3 1 (by decide) rfl (by decide) rfl
    (by decide)).1 (by decide)

/-- C6: after `applyMove` re-runs win detection on the post-placement
board, the turn flips to the other player exactly when no win was
found; on a win, the turn is left unchanged and the result is recorded
in `win`; and in the authority event machine a set `win` transitions
back to none only through a reset or a board-size change. -/
theorem turn_freeze_win_clear :
    (∀ (s : GameState) (index p : Nat),
      (checkWin (applyMove s index p).board s.n = none →
        (applyMove s index p).turn = (if p = 1 then 2 else 1)
        ∧ (applyMove s index p).win = none)
      ∧ ∀ w, checkWin (applyMove s index p).board s.n = some w →
        (applyMove s index p).turn = s.turn
        ∧ (applyMove s index p).win = some w)
    ∧ ∀ (s : GameState) (e : HostEvent),
        s.win.isSome = true → (hostStep s e).win = none →
        e = HostEvent.reset ∨ ∃ m, e = HostEvent.resize m := by
  constructor
  · intro s index p
    constructor
    · intro h
      constructor
      · rw [applyMove_turn, h]
      · rw [applyMove_win, h]
    · intro w h
      constructor
      · rw [applyMove_turn, h]
      · rw [applyMove_win, h]
  · intro s e hwin hnone
    cases e with
    | click i =>
      simp only [hostStep, hwin, if_true] at hnone
      rw [hnone] at hwin; cases hwin
    | attemptMsg i =>
      simp only [hostStep, hostOnData, hwin, Bool.or_true, if_true] at hnone
      rw [hnone] at hwin; cases hwin
    | reset => exact Or.inl rfl
    | resize m => exact Or.inr ⟨m, rfl⟩

/-- Closed instance of C6: the first move on the empty 3x3 board finds
no win, so the turn flips to player 2 and `win` stays none. -/
theorem turn_freeze_win_clear_witness :
    (applyMove (initialState 3) 0 1).turn = (if 1 = 1 then 2 else 1)
    ∧ (applyMove (initialState 3) 0 1).win = none :=
  (turn_freeze_win_clear.1 (initialState 3) 0 1).1 (by decide)

/-- Running a move sequence never changes the board size. -/
theorem run_n (s : GameState) (ms : List Nat) : (run s ms).n = s.n := by
  induction ms generalizing s with
  | nil => rfl
  | cons i is ih =>
    simp only [run]
    rw [ih, applyMove_n]

/-- One `applyMove` step preserves the queue-capacity bound. -/
theorem queues_le_step (s : GameState) (i pl : Nat) (hn : 1 ≤ s.n)
    (h : ∀ q, (s.queues q).length ≤ s.n) :
    ∀ q, ((applyMove s i pl).queues q).length ≤ s.n := by
  intro q
  rw [applyMove_queues]
  by_cases hq : q = pl
  · rw [if_pos hq]
    by_cases hcap : s.n ≤ (s.queues pl).length
    · cases hqp : s.queues pl with
      | nil => rw [hqp] at hcap; simp at hcap; omega
      | cons e rest =>
        rw [removeOldest_of_ge pl s.board s.queues s.n e rest hcap hqp]
        have hlen := h pl
        rw [hqp] at hlen
        simpa using hlen
    · rw [removeOldest_of_lt pl s.board s.queues s.n (Nat.not_le.1 hcap)]
      have := Nat.not_le.1 hcap
      simp only [List.length_append, List.length_cons, List.length_nil]
      omega
  · rw [if_neg hq]; exact h q

/-- The queue-capacity bound is preserved along any run. -/
theorem run_queues_le (ms : List Nat) : ∀ (s : GameState), 1 ≤ s.n →
    (∀ q, (s.queues q).length ≤ s.n) →
    ∀ q, ((run s ms).queues q).length ≤ s.n := by
  induction ms with
  | nil => intro s _ h q; exact h q
  | cons i is ih =>
    intro s hn h q
    simp only [run]
    have h' : ∀ q, ((applyMove s i s.turn).queues q).length ≤ (applyMove s i s.turn).n := by
      simp only [applyMove_n]
      exact queues_le_step s i s.turn hn h
    have hn' : 1 ≤ (applyMove s i s.turn).n := by rw [applyMove_n]; exact hn
    have := ih (applyMove s i s.turn) hn' h' q
    rw [applyMove_n] at this
    exact this

/-- C7: for board size `n ≥ 3` and any legal move sequence from the
initial empty state, both player queues hold at most `n` indices in
every intermediate and final state of the run. -/
theorem queue_capacity_invariant (n : Nat) (hn : 3 ≤ n)
    (ms ms₁ ms₂ : List Nat) (hsplit : ms = ms₁ ++ ms₂)
    (hleg : legalRun (initialState n) ms = true) (p : Nat) :
    ((run (initialState n) ms₁).queues p).length ≤ n := by
  have h1 : (1 : Nat) ≤ n := by omega
  exact run_queues_le ms₁ (initialState n) h1 (fun q => by simp [initialState]) p

/-- Closed instance of C7 at `n = 3` after the prefix `[0]` of the
legal sequence `[0, 4]`. -/
theorem queue_capacity_invariant_witness :
    ((run (initialState 3) [0]).queues 1).length ≤ 3 :=
  queue_capacity_invariant 3 (by decide) [0, 4] [0] [4] rfl (by decide) 1

/-- The label-advance rule realizes the cyclic successor modulo `n`. -/
theorem cycle_mod (n c : Nat) (hn : 1 ≤ n) :
    (if n ≤ c % n + 1 then 1 else c % n + 1 + 1) = (c + 1) % n + 1 := by
  have hlt : c % n < n := Nat.mod_lt _ hn
  by_cases h : c % n + 1 < n
  · rw [if_neg (by omega)]
    have h1n : 1 < n := by omega
    have hmod : (c + 1) % n = c % n + 1 := by
      rw [Nat.add_mod, Nat.mod_eq_of_lt h1n, Nat.mod_eq_of_lt h]
    rw [hmod]
  · have he : c % n = n - 1 := by omega
    rw [if_pos (by omega)]
    have hmod : (c + 1) % n = 0 := by
      rcases Nat.lt_or_ge 1 n with h1 | h1
      · have hn1 : n - 1 + 1 = n := by omega
        rw [Nat.add_mod, he, Nat.mod_eq_of_lt h1, hn1]
        exact Nat.mod_self n
      · have hone : n = 1 := by omega
        rw [hone]
        exact Nat.mod_one (c + 1)
    rw [hmod]

/-- A move by the player whose turn it is keeps the turn in `{1, 2}`. -/
theorem applyMove_turn_mem (s : GameState) (i : Nat)
    (h : s.turn = 1 ∨ s.turn = 2) :
    (applyMove s i s.turn).turn = 1 ∨ (applyMove s i s.turn).turn = 2 := by
  rcases hcw : checkWin (applyMove s i s.turn).board s.n with _ | w
  · rw [applyMove_turn, hcw]
    by_cases h1 : s.turn = 1
    · rw [if_pos h1]; exact Or.inr rfl
    · rw [if_neg h1]; exact Or.inl rfl
  · rw [applyMove_turn, hcw]; exact h

/-- Along any run, the labels handed to each of the two players form
the cyclic sequence `c % n + 1, (c + 1) % n + 1, ...` from the player
current counter position `c`, independently of the other player. -/
theorem runLabels_filter_aux (n : Nat) (hn : 1 ≤ n) :
    ∀ (ms : List Nat) (s : GameState) (c1 c2 : Nat),
      s.n = n → (s.turn = 1 ∨ s.turn = 2) →
      s.nextLabel 1 = c1 % n + 1 → s.nextLabel 2 = c2 % n + 1 →
      ((runLabels s ms).filter (fun pr => pr.1 == 1)).map Prod.snd
          = (List.range' c1
              (((runLabels s ms).filter (fun pr => pr.1 == 1)).length)).map
              (fun j => j % n + 1)
      ∧ ((runLabels s ms).filter (fun pr => pr.1 == 2)).map Prod.snd
          = (List.range' c2
              (((runLabels s ms).filter (fun pr => pr.1 == 2)).length)).map
              (fun j => j % n + 1) := by
  intro ms
  induction ms with
  | nil => intro s c1 c2 _ _ _ _; simp [runLabels]
  | cons i is ih =>
    intro s c1 c2 hsn ht h1 h2
    have hsn' : (applyMove s i s.turn).n = n := by rw [applyMove_n]; exact hsn
    have ht' := applyMove_turn_mem s i ht
    rcases ht with ht | ht
    · have hl1 : (applyMove s i s.turn).nextLabel 1 = (c1 + 1) % n + 1 := by
        rw [applyMove_nextLabel, if_pos ht.symm, ht, h1, hsn]
        exact cycle_mod n c1 hn
      have hl2 : (applyMove s i s.turn).nextLabel 2 = c2 % n + 1 := by
        rw [applyMove_nextLabel, if_neg (by rw [ht]; decide), h2]
      have hrec := ih (applyMove s i s.turn) (c1 + 1) c2 hsn' ht' hl1 hl2
      rw [ht] at hrec
      constructor
      · simp only [runLabels, ht, List.filter_cons, h1]
        norm_num
        rw [List.range'_succ]
        simp only [List.map_cons, Nat.add_eq]
        exact congrArg (List.cons (c1 % n + 1)) hrec.1
      · simp only [runLabels, ht, List.filter_cons]
        norm_num
        exact hrec.2
    · have hl2 : (applyMove s i s.turn).nextLabel 2 = (c2 + 1) % n + 1 := by
        rw [applyMove_nextLabel, if_pos ht.symm, ht, h2, hsn]
        exact cycle_mod n c2 hn
      have hl1 : (applyMove s i s.turn).nextLabel 1 = c1 % n + 1 := by
        rw [applyMove_nextLabel, if_neg (by rw [ht]; decide), h1]
      have hrec := ih (applyMove s i s.turn) c1 (c2 + 1) hsn' ht' hl1 hl2
      rw [ht] at hrec
      constructor
      · simp only [runLabels, ht, List.filter_cons]
        norm_num
        exact hrec.1
      · simp only [runLabels, ht, List.filter_cons, h2]
        norm_num
        rw [List.range'_succ]
        simp only [List.map_cons, Nat.add_eq]
        exact congrArg (List.cons (c2 % n + 1)) hrec.2

/-- C5: along any legal move sequence from the initial state, the
sequence of labels handed to player `p` is `1, 2, ..., n, 1, 2, ...`
— the k-th piece ever placed by `p` gets label `((k-1) mod n) + 1` —
independently of the other player; and `applyMove` assigns
`label = nextLabel[player]` and advances the counter to 1 when
`label ≥ n` and to `label + 1` otherwise. -/
theorem label_cycle_invariant (n : Nat) (hn : 1 ≤ n) (ms : List Nat)
    (hleg : legalRun (initialState n) ms = true) (p : Nat)
    (hp : p = 1 ∨ p = 2) :
    ((runLabels (initialState n) ms).filter (fun pr => pr.1 == p)).map Prod.snd
      = (List.range
          (((runLabels (initialState n) ms).filter (fun pr => pr.1 == p)).length)).map
          (fun j => j % n + 1)
    ∧ ∀ (s : GameState) (index : Nat),
      (applyMove s index p).board index
          = some { player := p, label := s.nextLabel p }
      ∧ (applyMove s index p).nextLabel p
          = (if s.n ≤ s.nextLabel p then 1 else s.nextLabel p + 1) := by
  constructor
  · have h := runLabels_filter_aux n hn ms (initialState n) 0 0 rfl (Or.inl rfl)
      (by simp [initialState]) (by simp [initialState])
    rw [List.range_eq_range']
    rcases hp with hp | hp <;> subst hp
    · exact h.1
    · exact h.2
  · intro s index
    constructor
    · rw [applyMove_board, if_pos rfl]
    · rw [applyMove_nextLabel, if_pos rfl]

/-- Closed instance of C5: over the legal run `[0, 4, 1]` on the empty
3x3 board, the labels handed to player 1 are `[1, 2]`. -/
theorem label_cycle_invariant_witness :
    ((runLabels (initialState 3) [0, 4, 1]).filter
        (fun pr => pr.1 == 1)).map Prod.snd
      = (List.range
          (((runLabels (initialState 3) [0, 4, 1]).filter
              (fun pr => pr.1 == 1)).length)).map (fun j => j % 3 + 1) :=
  (label_cycle_invariant 3 (by decide) [0, 4, 1] (by decide) 1 (Or.inl rfl)).1

/-- Eviction on an empty queue (possible only for `maxPieces = 0`)
touches nothing and returns the empty queue. -/
theorem removeOldest_of_nil (p : Nat) (b : Board) (q : Nat → List Nat)
    (maxP : Nat) (hq : q p = []) (h : maxP ≤ (q p).length) :
    removeOldestIfNeeded p b q maxP = (b, []) := by
  have h' : maxP ≤ ([] : List Nat).length := hq ▸ h
  unfold removeOldestIfNeeded
  simp only [hq, if_pos h']

/-- The state invariant behind C8: the turn is a valid player id, the
two queues are duplicate-free and disjoint, and the occupied board
cells are exactly the indices listed in either queue. -/
def coverInv (s : GameState) : Prop :=
  (s.turn = 1 ∨ s.turn = 2)
  ∧ (s.queues 1).Nodup
  ∧ (s.queues 2).Nodup
  ∧ (∀ i, i ∈ s.queues 1 → i ∉ s.queues 2)
  ∧ ∀ i, (s.board i).isSome = true ↔ (i ∈ s.queues 1 ∨ i ∈ s.queues 2)

/-- Build the coverage invariant from mover/other components, for
either assignment of the two player ids. -/
theorem coverInv_of_parts (s : GameState) (t o : Nat)
    (hto : (t = 1 ∧ o = 2) ∨ (t = 2 ∧ o = 1))
    (hturn : s.turn = 1 ∨ s.turn = 2)
    (hnt : (s.queues t).Nodup) (hno : (s.queues o).Nodup)
    (hd : ∀ j, j ∈ s.queues t → j ∉ s.queues o)
    (hc : ∀ j, (s.board j).isSome = true ↔ (j ∈ s.queues t ∨ j ∈ s.queues o)) :
    coverInv s := by
  rcases hto with ⟨ht, ho⟩ | ⟨ht, ho⟩ <;> subst ht <;> subst ho
  · exact ⟨hturn, hnt, hno, hd, hc⟩
  · refine ⟨hturn, hno, hnt, ?_, fun j => (hc j).trans or_comm⟩
    intro j hj1 hj2
    exact hd j hj2 hj1

/-- Read the coverage invariant as mover/other components, for either
assignment of the two player ids. -/
theorem coverInv_parts (s : GameState) (t o : Nat)
    (hto : (t = 1 ∧ o = 2) ∨ (t = 2 ∧ o = 1))
    (h : coverInv s) :
    (s.turn = 1 ∨ s.turn = 2)
    ∧ (s.queues t).Nodup ∧ (s.queues o).Nodup
    ∧ (∀ j, j ∈ s.queues t → j ∉ s.queues o)
    ∧ ∀ j, (s.board j).isSome = true ↔ (j ∈ s.queues t ∨ j ∈ s.queues o) := by
  obtain ⟨hturn, hn1, hn2, hd, hc⟩ := h
  rcases hto with ⟨ht, ho⟩ | ⟨ht, ho⟩ <;> subst ht <;> subst ho
  · exact ⟨hturn, hn1, hn2, hd, hc⟩
  · refine ⟨hturn, hn2, hn1, ?_, fun j => (hc j).trans or_comm⟩
    intro j hj2 hj1
    exact hd j hj1 hj2

/-- One move by player `t` (the current turn) on an empty target cell
preserves the coverage invariant. -/
theorem coverInv_step_gen (s : GameState) (i t o : Nat)
    (hto : (t = 1 ∧ o = 2) ∨ (t = 2 ∧ o = 1))
    (hturn : s.turn = t)
    (hbd : s.board i = none)
    (h : coverInv s) :
    coverInv (applyMove s i t) := by
  obtain ⟨hturn12, hnt, hno, hd, hc⟩ := coverInv_parts s t o hto h
  have hot : o ≠ t := by
    rcases hto with ⟨h1, h2⟩ | ⟨h1, h2⟩ <;> subst h1 <;> subst h2 <;> decide
  have hit : i ∉ s.queues t := by
    intro hm
    have := (hc i).2 (Or.inl hm)
    rw [hbd] at this; cases this
  have hio : i ∉ s.queues o := by
    intro hm
    have := (hc i).2 (Or.inr hm)
    rw [hbd] at this; cases this
  have hturn' : (applyMove s i t).turn = 1 ∨ (applyMove s i t).turn = 2 := by
    rw [← hturn]
    exact applyMove_turn_mem s i hturn12
  have hqo : (applyMove s i t).queues o = s.queues o := by
    rw [applyMove_queues, if_neg hot]
  by_cases hcap : s.n ≤ (s.queues t).length
  · cases hqt : s.queues t with
    | nil =>
      have hro := removeOldest_of_nil t s.board s.queues s.n hqt hcap
      have hqt' : (applyMove s i t).queues t = [i] := by
        rw [applyMove_queues, if_pos rfl, hro]
        rfl
      refine coverInv_of_parts _ t o hto hturn' ?_ ?_ ?_ ?_
      · rw [hqt']; exact List.nodup_singleton i
      · rw [hqo]; exact hno
      · intro j hj hjo
        rw [hqt'] at hj
        rw [hqo] at hjo
        rw [List.mem_singleton] at hj
        subst hj
        exact hio hjo
      · intro j
        rw [hqt', hqo, applyMove_board]
        by_cases hji : j = i
        · subst hji
          rw [if_pos rfl]
          simp
        · rw [if_neg hji, hro]
          constructor
          · intro hs
            rcases (hc j).1 hs with h1 | h2
            · rw [hqt] at h1; cases h1
            · exact Or.inr h2
          · intro hm
            apply (hc j).2
            rcases hm with h1 | h2
            · rw [List.mem_singleton] at h1; exact absurd h1 hji
            · exact Or.inr h2
    | cons e rest =>
      have hro := removeOldest_of_ge t s.board s.queues s.n e rest hcap hqt
      have hqt' : (applyMove s i t).queues t = rest ++ [i] := by
        rw [applyMove_queues, if_pos rfl, hro]
      have hnt' : e ∉ rest ∧ rest.Nodup := by
        rw [hqt] at hnt
        exact List.nodup_cons.1 hnt
      have he_mem : e ∈ s.queues t := by
        rw [hqt]; exact List.mem_cons_self e rest
      have heo : e ∉ s.queues o := hd e he_mem
      have hrest_sub : ∀ j ∈ rest, j ∈ s.queues t := by
        intro j hj
        rw [hqt]
        exact List.mem_cons_of_mem e hj
      have hie : i ≠ e := by
        intro hh; subst hh; exact hit he_mem
      have hirest : i ∉ rest := fun hh => hit (hrest_sub i hh)
      refine coverInv_of_parts _ t o hto hturn' ?_ ?_ ?_ ?_
      · rw [hqt']
        simp [List.nodup_append, hnt'.2, hirest]
      · rw [hqo]; exact hno
      · intro j hj hjo
        rw [hqt'] at hj
        rw [hqo] at hjo
        rcases List.mem_append.1 hj with hj | hj
        · exact hd j (hrest_sub j hj) hjo
        · rw [List.mem_singleton] at hj
          subst hj
          exact hio hjo
      · intro j
        rw [hqt', hqo, applyMove_board]
        by_cases hji : j = i
        · subst hji
          rw [if_pos rfl]
          simp
        · rw [if_neg hji, hro]
          by_cases hje : j = e
          · subst hje
            simp only [if_pos rfl]
            constructor
            · intro hs; cases hs
            · intro hm
              rcases hm with h1 | h2
              · rcases List.mem_append.1 h1 with h1 | h1
                · exact absurd h1 hnt'.1
                · rw [List.mem_singleton] at h1
                  exact absurd h1 (fun hh => hie hh.symm)
              · exact absurd h2 heo
          · simp only [if_neg hje]
            constructor
            · intro hs
              rcases (hc j).1 hs with h1 | h2
              · rw [hqt] at h1
                rcases List.mem_cons.1 h1 with h1 | h1
                · exact absurd h1 hje
                · exact Or.inl (List.mem_append.2 (Or.inl h1))
              · exact Or.inr h2
            · intro hm
              apply (hc j).2
              rcases hm with h1 | h2
              · rcases List.mem_append.1 h1 with h1 | h1
                · exact Or.inl (hrest_sub j h1)
                · rw [List.mem_singleton] at h1
                  exact absurd h1 hji
              · exact Or.inr h2
  · have hro := removeOldest_of_lt t s.board s.queues s.n (Nat.not_le.1 hcap)
    have hqt' : (applyMove s i t).queues t = s.queues t ++ [i] := by
      rw [applyMove_queues, if_pos rfl, hro]
    refine coverInv_of_parts _ t o hto hturn' ?_ ?_ ?_ ?_
    · rw [hqt']
      simp [List.nodup_append, hnt, hit]
    · rw [hqo]; exact hno
    · intro j hj hjo
      rw [hqt'] at hj
      rw [hqo] at hjo
      rcases List.mem_append.1 hj with hj | hj
      · exact hd j hj hjo
      · rw [List.mem_singleton] at hj
        subst hj
        exact hio hjo
    · intro j
      rw [hqt', hqo, applyMove_board]
      by_cases hji : j = i
      · subst hji
        rw [if_pos rfl]
        simp
      · rw [if_neg hji, hro]
        constructor
        · intro hs
          rcases (hc j).1 hs with h1 | h2
          · exact Or.inl (List.mem_append.2 (Or.inl h1))
          · exact Or.inr h2
        · intro hm
          apply (hc j).2
          rcases hm with h1 | h2
          · rcases List.mem_append.1 h1 with h1 | h1
            · exact Or.inl h1
            · rw [List.mem_singleton] at h1
              exact absurd h1 hji
          · exact Or.inr h2

/-- One legal move by the player whose turn it is preserves the
coverage invariant. -/
theorem coverInv_step (s : GameState) (i : Nat)
    (hleg : legalStep s i = true) (h : coverInv s) :
    coverInv (applyMove s i s.turn) := by
  have hbd : s.board i = none := by
    simp only [legalStep, Bool.and_eq_true, Option.isNone_iff_eq_none] at hleg
    exact hleg.2
  rcases h.1 with ht | ht
  · rw [ht]
    exact coverInv_step_gen s i 1 2 (Or.inl ⟨rfl, rfl⟩) ht hbd h
  · rw [ht]
    exact coverInv_step_gen s i 2 1 (Or.inr ⟨rfl, rfl⟩) ht hbd h

/-- The coverage invariant holds after any legal run from an invariant
state. -/
theorem coverInv_run : ∀ (ms : List Nat) (s : GameState),
    legalRun s ms = true → coverInv s → coverInv (run s ms) := by
  intro ms
  induction ms with
  | nil => intro s _ h; exact h
  | cons i is ih =>
    intro s hleg h
    simp only [legalRun, Bool.and_eq_true] at hleg
    simp only [run]
    exact ih _ hleg.2 (coverInv_step s i hleg.1 h)

/-- C8: in every state reachable from the initial empty state by legal
moves, a board index is occupied if and only if it appears in exactly
one of the two player queues. -/
theorem board_queue_coverage (n : Nat) (ms : List Nat)
    (hleg : legalRun (initialState n) ms = true) (i : Nat) :
    ((run (initialState n) ms).board i).isSome = true
      ↔ ((i ∈ (run (initialState n) ms).queues 1
            ∧ i ∉ (run (initialState n) ms).queues 2)
        ∨ (i ∈ (run (initialState n) ms).queues 2
            ∧ i ∉ (run (initialState n) ms).queues 1)) := by
  have h0 : coverInv (initialState n) := by
    refine ⟨Or.inl rfl, ?_, ?_, ?_, ?_⟩ <;> simp [initialState]
  obtain ⟨_, _, _, hdisj, hcov⟩ := coverInv_run ms (initialState n) hleg h0
  constructor
  · intro hs
    rcases (hcov i).1 hs with h1 | h2
    · exact Or.inl ⟨h1, hdisj i h1⟩
    · exact Or.inr ⟨h2, fun h1 => hdisj i h1 h2⟩
  · intro hm
    rcases hm with ⟨h1, _⟩ | ⟨h2, _⟩
    · exact (hcov i).2 (Or.inl h1)
    · exact (hcov i).2 (Or.inr h2)

/-- Closed instance of C8: after the legal single-move run `[0]`, cell
0 is occupied and listed exactly in the player-1 queue. -/
theorem board_queue_coverage_witness :
    ((run (initialState 3) [0]).board 0).isSome = true
      ↔ ((0 ∈ (run (initialState 3) [0]).queues 1
            ∧ 0 ∉ (run (initialState 3) [0]).queues 2)
        ∨ (0 ∈ (run (initialState 3) [0]).queues 2
            ∧ 0 ∉ (run (initialState 3) [0]).queues 1)) :=
  board_queue_coverage 3 [0] (by decide) 0

/-- Find-first over a list yields none exactly when every element
maps to none. -/
theorem findSome?_eq_none_iff {α β : Type} (f : α → Option β) (l : List α) :
    l.findSome? f = none ↔ ∀ a ∈ l, f a = none := by
  induction l with
  | nil => simp
  | cons a as ih =>
    rw [List.findSome?_cons]
    cases hfa : f a with
    | none =>
      simp only [List.mem_cons]
      constructor
      · intro hnone x hx
        rcases hx with rfl | hx
        · exact hfa
        · exact ih.1 hnone x hx
      · intro hall
        exact ih.2 fun x hx => hall x (Or.inr hx)
    | some b =>
      simp only [List.mem_cons]
      constructor
      · intro hcontra; cases hcontra
      · intro hall
        have := hall a (Or.inl rfl)
        rw [hfa] at this; cases this

/-- A successful find-first splits the list at the first success, with
only failures before it. -/
theorem findSome?_eq_some_split {α β : Type} (f : α → Option β)
    (l : List α) (b : β) (h : l.findSome? f = some b) :
    ∃ l₁ a l₂, l = l₁ ++ a :: l₂ ∧ f a = some b ∧ ∀ x ∈ l₁, f x = none := by
  induction l with
  | nil => rw [List.findSome?_nil] at h; cases h
  | cons a as ih =>
    rw [List.findSome?_cons] at h
    cases hfa : f a with
    | some c =>
      rw [hfa] at h
      have hcb : c = b := Option.some.inj h
      subst hcb
      exact ⟨[], a, as, rfl, hfa, fun x hx => absurd hx (List.not_mem_nil x)⟩
    | none =>
      rw [hfa] at h
      obtain ⟨l₁, x, l₂, rfl, hx, hnone⟩ := ih h
      refine ⟨a :: l₁, x, l₂, rfl, hx, ?_⟩
      intro y hy
      rcases List.mem_cons.1 hy with rfl | hy
      · exact hfa
      · exact hnone y hy

/-- The loop body of `checkWin` fails on a nonempty line exactly when
no player fully owns the line. -/
theorem lineWin_eq_none_iff (board : Board) (l : List Nat) (hl : l ≠ []) :
    lineWin board l = none ↔ ¬ ∃ p, ownedBy board l p := by
  cases l with
  | nil => exact absurd rfl hl
  | cons i0 t =>
    unfold lineWin
    simp only [List.head?_cons]
    cases hb : board i0 with
    | none =>
      constructor
      · rintro _ ⟨p, hp⟩
        obtain ⟨pc, hpc, _⟩ := hp i0 (List.mem_cons_self i0 t)
        rw [hb] at hpc; cases hpc
      · intro _; rfl
    | some first =>
      dsimp only
      by_cases hall : ((i0 :: t).all fun i =>
          match board i with
          | some pc => pc.player == first.player
          | none => false) = true
      · rw [if_pos hall]
        constructor
        · intro hcon; cases hcon
        · intro hno
          exfalso
          apply hno
          refine ⟨first.player, ?_⟩
          intro i hi
          have h1 := List.all_eq_true.1 hall i hi
          cases hbi : board i with
          | none => rw [hbi] at h1; cases h1
          | some pc =>
            rw [hbi] at h1
            exact ⟨pc, rfl, by simpa using h1⟩
      · rw [if_neg hall]
        constructor
        · rintro _ ⟨p, hp⟩
          apply hall
          obtain ⟨pc0, hpc0, hpp0⟩ := hp i0 (List.mem_cons_self i0 t)
          have hfp : first = pc0 := Option.some.inj (hb.symm.trans hpc0)
          rw [List.all_eq_true]
          intro x hx
          obtain ⟨pc, hpc, hpp⟩ := hp x hx
          rw [hpc]
          simp only [beq_iff_eq]
          rw [hpp, hfp, hpp0]
        · intro _; rfl

/-- A successful loop body reports the line itself, fully owned by the
reported winner. -/
theorem lineWin_eq_some (board : Board) (l : List Nat) (w : WinRes)
    (h : lineWin board l = some w) :
    w.line = l ∧ ownedBy board l w.winner := by
  cases l with
  | nil => unfold lineWin at h; simp only [List.head?_nil] at h; cases h
  | cons i0 t =>
    unfold lineWin at h
    simp only [List.head?_cons] at h
    cases hb : board i0 with
    | none => rw [hb] at h; cases h
    | some first =>
      rw [hb] at h
      dsimp only at h
      by_cases hall : ((i0 :: t).all fun i =>
          match board i with
          | some pc => pc.player == first.player
          | none => false) = true
      · rw [if_pos hall] at h
        have hw : w = { winner := first.player, line := i0 :: t } :=
          (Option.some.inj h).symm
        subst hw
        refine ⟨rfl, ?_⟩
        intro i hi
        have h1 := List.all_eq_true.1 hall i hi
        cases hbi : board i with
        | none => rw [hbi] at h1; cases h1
        | some pc =>
          rw [hbi] at h1
          exact ⟨pc, rfl, by simpa using h1⟩
      · rw [if_neg hall] at h; cases h

/-- Folding push-two over a list is the interleaved flat-map. -/
theorem foldl_append_eq_flatMap {α β : Type} (f : α → List β) :
    ∀ (l : List α) (acc : List β),
      l.foldl (fun a x => a ++ f x) acc = acc ++ l.flatMap f := by
  intro l
  induction l with
  | nil => intro acc; simp
  | cons x xs ih =>
    intro acc
    simp only [List.foldl_cons, List.flatMap_cons, ih, List.append_assoc]

/-- The source loop builds exactly the specification enumeration. -/
theorem winLines_eq_spec (n : Nat) : winLines n = specWinLines n := by
  rw [winLines, specWinLines, foldl_append_eq_flatMap]
  simp

/-- The enumeration holds `2n + 2` candidate lines. -/
theorem winLines_length (n : Nat) : (winLines n).length = 2 * n + 2 := by
  rw [winLines_eq_spec, specWinLines]
  rw [List.length_append]
  have h2 : ∀ L : List Nat,
      (L.flatMap (fun i => [rowLine i n, colLine i n])).length = 2 * L.length := by
    intro L
    induction L with
    | nil => simp
    | cons x xs ih =>
      simp only [List.flatMap_cons, List.length_append, ih, List.length_cons,
        List.length_nil]
      omega
  rw [h2 (List.range n), List.length_range]
  simp

/-- Membership in the enumeration is exactly being a row, a column, or
one of the two diagonals. -/
theorem winLines_mem (n : Nat) (l : List Nat) :
    l ∈ winLines n ↔
      ((∃ i, i < n ∧ l = rowLine i n) ∨ (∃ i, i < n ∧ l = colLine i n)
        ∨ l = diagLine n ∨ l = antiDiagLine n) := by
  rw [winLines_eq_spec, specWinLines]
  simp only [List.mem_append, List.mem_flatMap, List.mem_range,
    List.mem_cons, List.mem_singleton, List.not_mem_nil]
  constructor
  · rintro (⟨i, hi, rfl | (rfl | hfalse)⟩ | (rfl | (rfl | hfalse)))
    · exact Or.inl ⟨i, hi, rfl⟩
    · exact Or.inr (Or.inl ⟨i, hi, rfl⟩)
    · cases hfalse
    · exact Or.inr (Or.inr (Or.inl rfl))
    · exact Or.inr (Or.inr (Or.inr rfl))
    · cases hfalse
  · rintro (⟨i, hi, rfl⟩ | ⟨i, hi, rfl⟩ | rfl | rfl)
    · exact Or.inl ⟨i, hi, Or.inl rfl⟩
    · exact Or.inl ⟨i, hi, Or.inr (Or.inl rfl)⟩
    · exact Or.inr (Or.inl rfl)
    · exact Or.inr (Or.inr (Or.inl rfl))

/-- For `n ≥ 1` every candidate line is nonempty (it has `n` cells). -/
theorem winLines_ne_nil (n : Nat) (hn : 1 ≤ n) :
    ∀ l ∈ winLines n, l ≠ [] := by
  intro l hl
  rw [winLines_mem] at hl
  have hlen : l.length = n := by
    rcases hl with ⟨i, _, rfl⟩ | ⟨i, _, rfl⟩ | rfl | rfl <;>
      simp [rowLine, colLine, diagLine, antiDiagLine]
  intro hnil
  rw [hnil] at hlen
  simp at hlen
  omega

/-- C3: `checkWin` enumerates exactly the `2n + 2` lines in the order
row 0, column 0, ..., row n-1, column n-1, main diagonal,
anti-diagonal; it returns none exactly when no enumerated line (no row,
column or diagonal) is fully owned by a single player, and a returned
win is the first fully-owned line in that order, owned by the reported
winner (labels ignored). -/
theorem checkWin_enumeration_correct (board : Board) (n : Nat) (hn : 1 ≤ n) :
    winLines n = specWinLines n
    ∧ (winLines n).length = 2 * n + 2
    ∧ (∀ l, l ∈ winLines n ↔
        ((∃ i, i < n ∧ l = rowLine i n) ∨ (∃ i, i < n ∧ l = colLine i n)
          ∨ l = diagLine n ∨ l = antiDiagLine n))
    ∧ (checkWin board n = none ↔ ∀ l ∈ winLines n, ¬ ∃ p, ownedBy board l p)
    ∧ ∀ w, checkWin board n = some w →
        ownedBy board w.line w.winner
        ∧ ∃ pre post, winLines n = pre ++ w.line :: post
            ∧ ∀ l ∈ pre, ¬ ∃ p, ownedBy board l p := by
  refine ⟨winLines_eq_spec n, winLines_length n, winLines_mem n, ?_, ?_⟩
  · rw [checkWin, findSome?_eq_none_iff]
    constructor
    · intro h l hl
      exact (lineWin_eq_none_iff board l (winLines_ne_nil n hn l hl)).1 (h l hl)
    · intro h l hl
      exact (lineWin_eq_none_iff board l (winLines_ne_nil n hn l hl)).2 (h l hl)
  · intro w hw
    rw [checkWin] at hw
    obtain ⟨pre, a, post, heq, ha, hnone⟩ := findSome?_eq_some_split _ _ _ hw
    obtain ⟨hline, howned⟩ := lineWin_eq_some board a w ha
    subst hline
    refine ⟨howned, pre, post, heq, ?_⟩
    intro l hl
    have hmem : l ∈ winLines n := by
      rw [heq]; exact List.mem_append.2 (Or.inl hl)
    exact (lineWin_eq_none_iff board l (winLines_ne_nil n hn l hmem)).1
      (hnone l hl)

/-- Closed instance of C3 at `n = 3`: the enumeration has 8 lines. -/
theorem checkWin_enumeration_correct_witness :
    (winLines 3).length = 2 * 3 + 2 :=
  (checkWin_enumeration_correct (fun _ => none) 3 (by decide)).2.1

end TicTacToe
